import Mathlib

/-!
Verification of the MQTT subscription-matching trie of
`rmqtt/src/broker/topic.rs`: the trie data model, insertion and removal with
pruning, the lazy matching traversal, and the structural persistence codec.
-/

set_option maxHeartbeats 1000000

/-- Modelled from the spec: the external topic model (`ntex_mqtt::TopicLevel`,
consumed as an opaque capability, not part of this repository's sources). A
level is a literal text segment, a metadata-classified text segment (reserved
or system prefix), a blank segment, a single-level wildcard, or a multi-level
wildcard. -/
inductive Level : Type where
  | Normal (s : String)
  | Metadata (s : String)
  | Blank
  | SingleWildcard
  | MultiWildcard
deriving DecidableEq, Repr

/-- Modelled from the spec: classification predicate `Level::is_metadata` of
the external topic model; true exactly on metadata-classified (reserved or
system prefixed) levels. -/
def Level.is_metadata : Level → Bool
  | .Metadata _ => true
  | _ => false

/-- Trie node `Node<V>` of the source: an insertion-ordered value set
(`HashSet<V>`, rendered as a duplicate-free list in insertion order) and a
level-keyed branch map (`HashMap<Level, Node<V>>`, rendered as an association
list with unique keys). -/
inductive Node (V : Type) : Type where
  | mk (values : List V) (branches : List (Level × Node V))

/-- Accessor `Node::values`. -/
def Node.values {V} : Node V → List V
  | .mk vs _ => vs

/-- Accessor `Node::children` for the branch map. -/
def Node.branches {V} : Node V → List (Level × Node V)
  | .mk _ bs => bs

/-- Empty node, `Node::default`. -/
def Node.default {V} : Node V := .mk [] []

/-- Branch-map lookup, `HashMap::get` / `Node::child`. -/
def findBranch {V} : List (Level × Node V) → Level → Option (Node V)
  | [], _ => none
  | (k, c) :: rest, l => if k = l then some c else findBranch rest l

/-- Branch-map membership, `HashMap::contains_key`. -/
def hasBranch {V} (bs : List (Level × Node V)) (l : Level) : Bool :=
  (findBranch bs l).isSome

/-- Branch-map update: stores a child under a key, replacing an existing
binding in place and appending a missing one (the net effect of the
`HashMap` entry API used by `Node::_insert`). -/
def updateBranch {V} : List (Level × Node V) → Level → Node V → List (Level × Node V)
  | [], l, c => [(l, c)]
  | (k, c0) :: rest, l, c =>
    if k = l then (k, c) :: rest else (k, c0) :: updateBranch rest l c

/-- Branch-map deletion, `HashMap::remove`. -/
def removeBranch {V} : List (Level × Node V) → Level → List (Level × Node V)
  | [], _ => []
  | (k, c0) :: rest, l => if k = l then rest else (k, c0) :: removeBranch rest l

/-- Value-set insertion (`LinkedHashMap::insert` keyed by the value): a
missing value is appended at the back and reported as new; an already
present value is reported as seen and its entry is detached and re-attached
at the back of the iteration order (the crate updates the entry's position
on re-insertion). -/
def insertValue {V} [DecidableEq V] (vs : List V) (v : V) : List V × Bool :=
  if v ∈ vs then (vs.erase v ++ [v], false) else (vs ++ [v], true)

/-- Recursive insertion `Node::_insert`. The Rust code reverses the level
vector and pops from the back, which consumes the filter front to back; each
missing child is created empty (`entry(..).or_default()`). Returns the
updated node and the reported freshness flag. -/
def Node._insert {V} [DecidableEq V] : Node V → List Level → V → Node V × Bool
  | n, [], v =>
    let r := insertValue n.values v
    (.mk r.1 n.branches, r.2)
  | n, l :: rest, v =>
    let child := (findBranch n.branches l).getD Node.default
    let r := Node._insert child rest v
    (.mk n.values (updateBranch n.branches l r.1), r.2)

/-- Public `Node::insert`. -/
def Node.insert {V} [DecidableEq V] (n : Node V) (f : List Level) (v : V) :
    Node V × Bool :=
  Node._insert n f v

/-- Recursive removal `Node::_remove` (also the body of `Node::remove`):
descends by lookup only, removes the value at the leaf, and on the way back
up deletes the descended-into child from the branch map when it ends up with
no values and no branches. -/
def Node._remove {V} [DecidableEq V] : Node V → List Level → V → Node V × Bool
  | n, [], v =>
    if v ∈ n.values then (.mk (n.values.erase v) n.branches, true) else (n, false)
  | n, l :: rest, v =>
    match findBranch n.branches l with
    | none => (n, false)
    | some child =>
      let r := Node._remove child rest v
      if r.1.values.isEmpty && r.1.branches.isEmpty then
        (.mk n.values (removeBranch n.branches l), r.2)
      else
        (.mk n.values (updateBranch n.branches l r.1), r.2)

/-- Public `Node::remove`. -/
def Node.remove {V} [DecidableEq V] (n : Node V) (f : List Level) (v : V) :
    Node V × Bool :=
  Node._remove n f v

/-- Values stored at the end of a level path: iterated `Node::child` followed
by `Node::values`; the empty list when the path does not exist. -/
def Node.valuesAt {V} : Node V → List Level → List V
  | n, [] => n.values
  | n, l :: rest =>
    match findBranch n.branches l with
    | some c => Node.valuesAt c rest
    | none => []

/-- Non-emptiness of a node: it holds a value or a branch. -/
def nodeNonEmpty {V} (n : Node V) : Bool :=
  !n.values.isEmpty || !n.branches.isEmpty

mutual

/-- Data-model invariant of the spec: every descendant node (the root itself
excluded) is non-empty. -/
def wfNode {V} : Node V → Bool
  | .mk _ bs => wfBranches bs

/-- Invariant check over a branch list. -/
def wfBranches {V} : List (Level × Node V) → Bool
  | [] => true
  | (_, c) :: rest => (nodeNonEmpty c && wfNode c) && wfBranches rest
end

/-- Item type yielded by the matching traversal: the matched filter path and
the value list of the matched node. -/
abbrev Item (V : Type) : Type := List Level × List V

/-- Frame-local item registration `MatchedIter::add_to_items`: an empty value
set is skipped; insertion is keyed by the path and keeps the first entry for
a path (`curr_items.entry(levels).or_insert(..)`), new entries at the back. -/
def addItem {V} (items : List (Item V)) (k : List Level) (vs : List V) :
    List (Item V) :=
  if vs.isEmpty then items
  else if items.any (fun p => decide (p.1 = k)) then items
  else items ++ [(k, vs)]

/-- Root-exclusion test of `MatchedIter::prepare` (also `Node::_matches`):
wildcard branches are skipped when no level has been consumed yet, the
current topic level is not Blank, it is metadata-classified, and a wildcard
branch exists at the node. -/
def metaSkip {V} (n : Node V) (l : Level) (sp : List Level) : Bool :=
  sp.isEmpty && !(decide (l = Level.Blank)) && l.is_metadata &&
    (hasBranch n.branches .MultiWildcard || hasBranch n.branches .SingleWildcard)

/-- Complete output sequence of the lazy matching traversal, assembled from
`MatchedIter::prepare` and `MatchedIter::next_item`: a frame first yields its
queued direct items (the MultiWildcard child's values and, on an exhausted
topic, the node's own values), then every item of the SingleWildcard child
frame, then every item of the precise-literal child frame. -/
def matchesList {V} : Node V → List Level → List Level → List (Item V)
  | n, [], sp =>
    let c1 : List (Item V) :=
      match findBranch n.branches .MultiWildcard with
      | some b => addItem [] (sp ++ [.MultiWildcard]) b.values
      | none => []
    addItem c1 sp n.values
  | n, l :: rest, sp =>
    let c1 : List (Item V) :=
      if metaSkip n l sp then []
      else
        match findBranch n.branches .MultiWildcard with
        | some b => addItem [] (sp ++ [.MultiWildcard]) b.values
        | none => []
    let s1 : List (Item V) :=
      if metaSkip n l sp then []
      else
        match findBranch n.branches .SingleWildcard with
        | some b => matchesList b rest (sp ++ [.SingleWildcard])
        | none => []
    let s2 : List (Item V) :=
      match findBranch n.branches l with
      | some b => matchesList b rest (sp ++ [l])
      | none => []
    c1 ++ s1 ++ s2

/-- Traversal state `MatchedIter`: the current node, the unconsumed suffix of
topic levels, the pending sub-path (present until the frame is prepared,
cleared by `prepare`), the queue of computed-but-unreturned items, and the
ordered child frames. -/
inductive MIter (V : Type) : Type where
  | mk (node : Node V) (path : List Level) (sub_path : Option (List Level))
       (curr_items : List (Item V)) (sub_iters : List (MIter V))

/-- Fresh frame, `MatchedIter::new`. -/
def MIter.new {V} (n : Node V) (path : List Level) (sp : List Level) : MIter V :=
  .mk n path (some sp) [] []

/-- Frame preparation `MatchedIter::prepare`, run once per frame on the first
pull: queues the directly available items and pushes the deferred child
frames (the SingleWildcard child first, the precise-literal child second);
afterwards the sub-path is cleared. -/
def prepare {V} (n : Node V) (p : List Level) (sp : List Level)
    (curr : List (Item V)) (subs : List (MIter V)) : MIter V :=
  match p with
  | [] =>
    let c1 : List (Item V) :=
      match findBranch n.branches .MultiWildcard with
      | some b => addItem curr (sp ++ [.MultiWildcard]) b.values
      | none => curr
    .mk n p none (addItem c1 sp n.values) subs
  | l :: rest =>
    let c1 : List (Item V) :=
      if metaSkip n l sp then curr
      else
        match findBranch n.branches .MultiWildcard with
        | some b => addItem curr (sp ++ [.MultiWildcard]) b.values
        | none => curr
    let subs1 : List (MIter V) :=
      if metaSkip n l sp then subs
      else
        match findBranch n.branches .SingleWildcard with
        | some b => subs ++ [MIter.new b rest (sp ++ [.SingleWildcard])]
        | none => subs
    let subs2 : List (MIter V) :=
      match findBranch n.branches l with
      | some b => subs1 ++ [MIter.new b rest (sp ++ [l])]
      | none => subs1
    .mk n p none c1 subs2

/-- While-loop of `MatchedIter::next_item`: pulls from the first child frame,
dropping each exhausted frame, until one yields or none is left. -/
def nextFromSubs {V} (step : MIter V → Option (Item V × MIter V)) :
    List (MIter V) → Option (Item V) × List (MIter V)
  | [] => (none, [])
  | s :: rest =>
    match step s with
    | some (i, s') => (some i, s' :: rest)
    | none => nextFromSubs step rest

/-- Body of `MatchedIter::next_item`: drains the frame's own queue first, then
the child frames in order, returning the possibly mutated frame. -/
def next_item {V} (step : MIter V → Option (Item V × MIter V)) :
    MIter V → Option (Item V) × MIter V
  | .mk n p sp curr subs =>
    match curr with
    | i :: rest => (some i, .mk n p sp rest subs)
    | [] =>
      match nextFromSubs step subs with
      | (some i, subs') => (some i, .mk n p sp [] subs')
      | (none, subs') => (none, .mk n p sp [] subs')

/-- One pull, `<MatchedIter as Iterator>::next`: try `next_item`; when it
fails and the frame is already prepared the traversal is exhausted, otherwise
prepare the frame and try `next_item` once more. The fuel argument only
bounds the recursion depth into child frames; with fuel at least the frame
bound `fuelB` it never runs out. -/
def MIter.next {V} : Nat → MIter V → Option (Item V × MIter V)
  | 0, _ => none
  | Nat.succ f, it =>
    match next_item (MIter.next f) it with
    | (some i, it') => some (i, it')
    | (none, it') =>
      match it' with
      | .mk _ _ none _ _ => none
      | .mk n p (some sp) curr subs =>
        match next_item (MIter.next f) (prepare n p sp curr subs) with
        | (some i, it'') => some (i, it'')
        | (none, _) => none

/-- Full run of the traversal: pulls with `MIter.next` until exhaustion,
collecting every yielded item in order. -/
def MIter.run {V} : Nat → MIter V → List (Item V)
  | 0, _ => []
  | Nat.succ f, it =>
    match MIter.next (Nat.succ f) it with
    | none => []
    | some (i, it') => i :: MIter.run f it'

mutual

/-- Denotation of a traversal state: the sequence of items it will yield — the
queued items, then the child frames' items, then (for an unprepared frame)
the whole output of the frame's own node and path. -/
def sem {V} : MIter V → List (Item V)
  | .mk n p sp curr subs =>
    curr ++ semL subs ++
      (match sp with
       | some s => matchesList n p s
       | none => [])

/-- Denotation of a child-frame list. -/
def semL {V} : List (MIter V) → List (Item V)
  | [] => []
  | s :: rest => sem s ++ semL rest
end

mutual

/-- Fuel bound of a traversal state: one more than the larger of the
unconsumed path length and the bounds of the child frames. -/
def fuelB {V} : MIter V → Nat
  | .mk _ p _ _ subs => max (p.length + 1) (fuelBL subs + 1)

/-- Fuel bound of a child-frame list. -/
def fuelBL {V} : List (MIter V) → Nat
  | [] => 0
  | s :: rest => max (fuelB s) (fuelBL rest)
end

/-- Modelled from the spec: `crate::NodeId`, an opaque hashable identifier
(declared outside this file's sources); rendered as a natural number. -/
abbrev NodeId : Type := Nat

/-- Serde-style structural data exchanged by the persistence codec: the
shapes produced and consumed by `Serialize` / `Deserialize` for
`Node<NodeId>`. -/
inductive SData : Type where
  | nat (n : Nat)
  | unit
  | level (l : Level)
  | pair (a b : SData)
  | seq (xs : List SData)

mutual

/-- Structural encoding, `impl Serialize for Node<NodeId>`: a node becomes a
two-element sequence holding its value entries (each value paired with unit,
in set-iteration order) and its branch entries (each level paired with the
encoded child). -/
def encodeNode : Node NodeId → SData
  | .mk vs bs =>
    .seq [.seq (vs.map fun v => .pair (.nat v) .unit), .seq (encodeBranches bs)]

/-- Encoding of the branch entries. -/
def encodeBranches : List (Level × Node NodeId) → List SData
  | [] => []
  | (l, c) :: rest => .pair (.level l) (encodeNode c) :: encodeBranches rest
end

/-- Decoding of one value entry `(NodeId, ())`. -/
def decodeValueEntry : SData → Option NodeId
  | .pair (.nat v) .unit => some v
  | _ => none

/-- Decoding of a list of value entries: every entry must decode. -/
def decodeValueList : List SData → Option (List NodeId)
  | [] => some []
  | x :: rest =>
    match decodeValueEntry x with
    | none => none
    | some v =>
      match decodeValueList rest with
      | none => none
      | some vs => some (v :: vs)

/-- Decoding of the first element, `Vec<(NodeId, ())>`: a sequence whose
entries all decode. -/
def decodeValues : SData → Option (List NodeId)
  | .seq xs => decodeValueList xs
  | _ => none

/-- Rebuild of the decoded value set, `HashSet::from_iter`: keyed insertion
in order; a repeated value is moved to the back of the iteration order, as
each insertion re-attaches an existing entry at the back. -/
def fromIterValues (vs : List NodeId) : List NodeId :=
  vs.foldl (fun acc v => (if v ∈ acc then acc.erase v else acc) ++ [v]) []

/-- Rebuild of the decoded branch map, `HashMap::from_iter`: keyed insertion
in order, a later binding for a key overwriting the earlier one. -/
def fromIterBranches (bs : List (Level × Node NodeId)) :
    List (Level × Node NodeId) :=
  bs.foldl (fun acc p => updateBranch acc p.1 p.2) []

mutual

/-- Structural decoding, `impl Deserialize for Node<NodeId>`
(`NodeVisitor::visit_seq`): the encoded form must be exactly a two-element
sequence whose first element decodes as the value entries and whose second
decodes as the branch entries; any nested failure aborts the whole decode
and no partial tree is built. -/
def decodeNode : SData → Option (Node NodeId)
  | .seq [a, b] =>
    match decodeValues a with
    | none => none
    | some vs =>
      match b with
      | .seq ys =>
        match decodeBranchList ys with
        | none => none
        | some bs => some (.mk (fromIterValues vs) (fromIterBranches bs))
      | _ => none
  | _ => none

/-- Decoding of the branch entries `(Level, Node<NodeId>)`. -/
def decodeBranchList : List SData → Option (List (Level × Node NodeId))
  | [] => some []
  | x :: rest =>
    match x with
    | .pair (.level l) c =>
      match decodeNode c with
      | none => none
      | some cn =>
        match decodeBranchList rest with
        | none => none
        | some bs => some ((l, cn) :: bs)
    | _ => none
end

/-- One mutation of the public trie interface. -/
inductive Op (V : Type) : Type where
  | ins (f : List Level) (v : V)
  | rem (f : List Level) (v : V)

/-- Application of one mutation, keeping the resulting tree. -/
def applyOp {V} [DecidableEq V] (t : Node V) : Op V → Node V
  | .ins f v => (t._insert f v).1
  | .rem f v => (t._remove f v).1

/-- Tree reached from the empty root by a finite mutation sequence. -/
def applyOps {V} [DecidableEq V] (ops : List (Op V)) : Node V :=
  ops.foldl applyOp Node.default

def sysTree : Node Nat :=
  ((((Node.default : Node Nat).insert [Level.MultiWildcard] 1).1.insert
      [Level.SingleWildcard, Level.Normal "x"] 2).1.insert
      [Level.Metadata "$SYS", Level.Normal "x"] 3).1

def plusTree : Node Nat :=
  ((Node.default : Node Nat).insert
    [Level.SingleWildcard, Level.SingleWildcard, Level.MultiWildcard] 5).1

/-- Shape of a matched-path suffix relative to the unconsumed topic levels:
either the MultiWildcard token alone, or (when a topic level remains) that
literal level or the SingleWildcard token followed by a shape for the rest,
or the empty suffix on an exhausted topic. -/
def shapeOk : List Level → List Level → Prop
  | [], s => s = [Level.MultiWildcard] ∨ s = []
  | l :: rest, s =>
    s = [Level.MultiWildcard] ∨
      ∃ s', (s = Level.SingleWildcard :: s' ∨ s = l :: s') ∧ shapeOk rest s'

/-- Correctness contract for one pull on a traversal state: on exhaustion the
state's denotation is empty, and a yielded item is the denotation's head with
the successor state denoting the tail and not growing the fuel bound. -/
def stepOK {V} (step : MIter V → Option (Item V × MIter V)) (it : MIter V) : Prop :=
  (step it = none → sem it = []) ∧
  (∀ i it', step it = some (i, it') → sem it = i :: sem it' ∧ fuelB it' ≤ fuelB it)

def exTree : Node Nat :=
  (((((Node.default : Node Nat).insert
      [Level.Normal "a", Level.Normal "b", Level.Normal "c"] 1).1.insert
      [Level.Normal "a", Level.SingleWildcard, Level.Normal "c"] 2).1.insert
      [Level.Normal "a", Level.MultiWildcard] 3).1.insert
      [Level.Normal "a", Level.Normal "b"] 4).1

/-- Duplicate-freeness of a decoded value list. -/
def nodupVals : List NodeId → Bool
  | [] => true
  | v :: rest => !(decide (v ∈ rest)) && nodupVals rest

/-- Duplicate-freeness of the keys of a branch list. -/
def nodupKeysB {V} : List (Level × Node V) → Bool
  | [] => true
  | (k, _) :: rest => !(hasBranch rest k) && nodupKeysB rest

mutual

/-- Representation invariant of the Rust container types: a `HashSet` value
set never holds a value twice and a `HashMap` branch map never holds a key
twice; every tree the Rust code can represent satisfies it. -/
def codecInv : Node NodeId → Bool
  | .mk vs bs => nodupVals vs && nodupKeysB bs && codecInvB bs

/-- Representation invariant over a branch list. -/
def codecInvB : List (Level × Node NodeId) → Bool
  | [] => true
  | (_, c) :: rest => codecInv c && codecInvB rest
end

@[simp] theorem Node.values_mk {V} (vs : List V) (bs : List (Level × Node V)) :
    (Node.mk vs bs).values = vs := rfl

@[simp] theorem Node.branches_mk {V} (vs : List V) (bs : List (Level × Node V)) :
    (Node.mk vs bs).branches = bs := rfl

theorem findBranch_updateBranch_self {V} (bs : List (Level × Node V)) (l : Level) (c : Node V) :
    findBranch (updateBranch bs l c) l = some c := by
  induction bs with
  | nil => simp [updateBranch, findBranch]
  | cons p rest ih =>
    obtain ⟨k, c0⟩ := p
    by_cases h : k = l <;> simp [updateBranch, findBranch, h, ih]

theorem findBranch_updateBranch_ne {V} (bs : List (Level × Node V)) (l k : Level) (c : Node V)
    (h : k ≠ l) : findBranch (updateBranch bs l c) k = findBranch bs k := by
  have hlk : ¬(l = k) := fun hh => h hh.symm
  induction bs with
  | nil => simp [updateBranch, findBranch, hlk]
  | cons p rest ih =>
    obtain ⟨k0, c0⟩ := p
    by_cases h0 : k0 = l
    · subst h0
      have hk : ¬(k0 = k) := fun hh => h hh.symm
      simp [updateBranch, findBranch, hk]
    · simp only [updateBranch, h0, if_false, findBranch]
      by_cases h1 : k0 = k <;> simp [h1, ih]

theorem updateBranch_self_of_find {V} (bs : List (Level × Node V)) (l : Level) (c : Node V)
    (h : findBranch bs l = some c) : updateBranch bs l c = bs := by
  induction bs with
  | nil => simp [findBranch] at h
  | cons p rest ih =>
    obtain ⟨k, c0⟩ := p
    by_cases h0 : k = l
    · subst h0
      simp [findBranch] at h
      simp [updateBranch, h]
    · simp [findBranch, h0] at h
      simp [updateBranch, h0, ih h]

theorem updateBranch_ne_nil {V} (bs : List (Level × Node V)) (l : Level) (c : Node V) :
    updateBranch bs l c ≠ [] := by
  cases bs with
  | nil => simp [updateBranch]
  | cons p rest =>
    obtain ⟨k, c0⟩ := p
    by_cases h : k = l <;> simp [updateBranch, h]

theorem mem_updateBranch {V} (bs : List (Level × Node V)) (l : Level) (c : Node V)
    (p : Level × Node V) (h : p ∈ updateBranch bs l c) : p ∈ bs ∨ p = (l, c) := by
  induction bs with
  | nil => simp [updateBranch] at h; simp [h]
  | cons q rest ih =>
    obtain ⟨k, c0⟩ := q
    by_cases h0 : k = l
    · subst h0
      simp [updateBranch] at h
      rcases h with h | h
      · right; simp [h]
      · left; simp [h]
    · simp [updateBranch, h0] at h
      rcases h with h | h
      · left; simp [h]
      · rcases ih h with h1 | h1
        · left; simp [h1]
        · right; exact h1

theorem mem_removeBranch {V} (bs : List (Level × Node V)) (l : Level)
    (p : Level × Node V) (h : p ∈ removeBranch bs l) : p ∈ bs := by
  induction bs with
  | nil => simp [removeBranch] at h
  | cons q rest ih =>
    obtain ⟨k, c0⟩ := q
    by_cases h0 : k = l
    · simp only [removeBranch, h0, if_true] at h
      exact List.mem_cons_of_mem _ h
    · simp only [removeBranch, h0, if_false, List.mem_cons] at h
      rcases h with h | h
      · simp [h]
      · exact List.mem_cons_of_mem _ (ih h)

theorem wfBranches_iff {V} (bs : List (Level × Node V)) :
    wfBranches bs = true ↔ ∀ p ∈ bs, nodeNonEmpty p.2 = true ∧ wfNode p.2 = true := by
  induction bs with
  | nil => simp [wfBranches]
  | cons p rest ih =>
    obtain ⟨k, c⟩ := p
    simp [wfBranches, ih]

theorem wfNode_eq {V} (n : Node V) : wfNode n = wfBranches n.branches := by
  cases n; rfl

theorem valuesAt_default {V} (p : List Level) :
    (Node.default : Node V).valuesAt p = [] := by
  cases p <;> simp [Node.default, Node.valuesAt, findBranch]

theorem wfNode_default {V} : wfNode (Node.default : Node V) = true := rfl

theorem Node.mk_eta {V} (n : Node V) : Node.mk n.values n.branches = n := by
  cases n; rfl

theorem findBranch_mem {V} (bs : List (Level × Node V)) (k : Level) (c : Node V)
    (h : findBranch bs k = some c) : (k, c) ∈ bs := by
  induction bs with
  | nil => simp [findBranch] at h
  | cons p rest ih =>
    obtain ⟨k0, c0⟩ := p
    by_cases h0 : k0 = k
    · subst h0
      simp [findBranch] at h
      simp [h]
    · simp [findBranch, h0] at h
      exact List.mem_cons_of_mem _ (ih h)

theorem insert_snd_iff {V} [DecidableEq V] (f : List Level) (n : Node V) (v : V) :
    (Node._insert n f v).2 = true ↔ v ∉ n.valuesAt f := by
  induction f generalizing n with
  | nil =>
    by_cases h : v ∈ n.values <;>
      simp [Node._insert, insertValue, Node.valuesAt, h]
  | cons l rest ih =>
    simp only [Node._insert, Node.valuesAt]
    cases hf : findBranch n.branches l with
    | some c => simp [hf, ih]
    | none => simp [hf, ih, valuesAt_default]

theorem insert_mem_self {V} [DecidableEq V] (f : List Level) (n : Node V) (v : V) :
    v ∈ (Node._insert n f v).1.valuesAt f := by
  induction f generalizing n with
  | nil =>
    by_cases h : v ∈ n.values <;>
      simp [Node._insert, insertValue, Node.valuesAt, h]
  | cons l rest ih =>
    simp only [Node._insert, Node.valuesAt, Node.branches_mk,
      findBranch_updateBranch_self]
    exact ih _

theorem insert_preserves_mem {V} [DecidableEq V] (f : List Level) (n : Node V) (v w : V)
    (h : w ∈ n.valuesAt f) : w ∈ (Node._insert n f v).1.valuesAt f := by
  induction f generalizing n with
  | nil =>
    by_cases hv : v ∈ n.values
    · simp only [Node.valuesAt] at h
      simp only [Node._insert, insertValue, hv, if_true, Node.valuesAt, Node.values_mk,
        List.mem_append, List.mem_singleton]
      by_cases hwv : w = v
      · right; exact hwv
      · left; exact (List.mem_erase_of_ne hwv).mpr h
    · simp_all [Node._insert, insertValue, Node.valuesAt]
  | cons l rest ih =>
    simp only [Node.valuesAt] at h
    cases hf : findBranch n.branches l with
    | none => simp [hf] at h
    | some c =>
      simp only [hf] at h
      simp only [Node._insert, Node.valuesAt, Node.branches_mk, hf, Option.getD_some,
        findBranch_updateBranch_self]
      exact ih _ h

theorem insert_mem_moves {V} [DecidableEq V] (f : List Level) (n : Node V) (v : V)
    (h : v ∈ n.valuesAt f) :
    (Node._insert n f v).2 = false ∧
      (Node._insert n f v).1.valuesAt f = (n.valuesAt f).erase v ++ [v] := by
  induction f generalizing n with
  | nil =>
    simp only [Node.valuesAt] at h
    simp [Node._insert, insertValue, h, Node.valuesAt]
  | cons l rest ih =>
    simp only [Node.valuesAt] at h
    cases hf : findBranch n.branches l with
    | none => simp [hf] at h
    | some c =>
      simp only [hf] at h
      obtain ⟨h1, h2⟩ := ih c h
      constructor
      · simp only [Node._insert, hf, Option.getD_some]
        exact h1
      · simp only [Node._insert, hf, Option.getD_some, Node.valuesAt,
          Node.branches_mk, findBranch_updateBranch_self]
        exact h2

theorem insert_nonEmpty {V} [DecidableEq V] (f : List Level) (n : Node V) (v : V) :
    nodeNonEmpty (Node._insert n f v).1 = true := by
  cases f with
  | nil =>
    by_cases h : v ∈ n.values <;>
      simp [Node._insert, insertValue, nodeNonEmpty, h, List.isEmpty_iff]
  | cons l rest =>
    simp [Node._insert, nodeNonEmpty, updateBranch_ne_nil, List.isEmpty_iff]

theorem wf_insert {V} [DecidableEq V] (f : List Level) (n : Node V) (v : V)
    (h : wfNode n = true) : wfNode (Node._insert n f v).1 = true := by
  induction f generalizing n with
  | nil =>
    simp only [Node._insert]
    rw [wfNode_eq] at h ⊢
    simpa using h
  | cons l rest ih =>
    simp only [Node._insert]
    rw [wfNode_eq]
    rw [wfNode_eq] at h
    rw [wfBranches_iff] at h ⊢
    simp only [Node.branches_mk]
    intro p hp
    rcases mem_updateBranch _ _ _ _ hp with hmem | heq
    · exact h p hmem
    · subst heq
      refine ⟨insert_nonEmpty _ _ _, ?_⟩
      cases hf : findBranch n.branches l with
      | none => simp only [hf]; exact ih _ wfNode_default
      | some c =>
        simp only [hf]
        exact ih _ (h _ (findBranch_mem _ _ _ hf)).2

theorem nodeNonEmpty_iff {V} (n : Node V) :
    nodeNonEmpty n = !(n.values.isEmpty && n.branches.isEmpty) := by
  simp [nodeNonEmpty]

theorem remove_of_not_mem {V} [DecidableEq V] (f : List Level) (n : Node V) (v : V)
    (hwf : wfNode n = true) (h : v ∉ n.valuesAt f) : Node._remove n f v = (n, false) := by
  induction f generalizing n with
  | nil =>
    simp only [Node.valuesAt] at h
    simp [Node._remove, h]
  | cons l rest ih =>
    simp only [Node.valuesAt] at h
    cases hf : findBranch n.branches l with
    | none => simp [Node._remove, hf]
    | some c =>
      simp only [hf] at h
      have hc := (wfBranches_iff n.branches).mp (wfNode_eq n ▸ hwf) _ (findBranch_mem _ _ _ hf)
      have hrec := ih c hc.2 h
      have hne : (c.values.isEmpty && c.branches.isEmpty) = false := by
        have h2 := hc.1
        rw [nodeNonEmpty_iff] at h2
        cases hb : (c.values.isEmpty && c.branches.isEmpty)
        · rfl
        · rw [hb] at h2
          simp at h2
      simp [Node._remove, hf, hrec, hne, updateBranch_self_of_find _ _ _ hf, Node.mk_eta]

theorem wf_remove {V} [DecidableEq V] (f : List Level) (n : Node V) (v : V)
    (h : wfNode n = true) : wfNode (Node._remove n f v).1 = true := by
  induction f generalizing n with
  | nil =>
    by_cases hv : v ∈ n.values
    · simp only [Node._remove, hv, if_true]
      rw [wfNode_eq] at h ⊢
      simpa using h
    · simp [Node._remove, hv, h]
  | cons l rest ih =>
    cases hf : findBranch n.branches l with
    | none => simp [Node._remove, hf, h]
    | some c =>
      have hc := (wfBranches_iff n.branches).mp (wfNode_eq n ▸ h) _ (findBranch_mem _ _ _ hf)
      have hwfc : wfNode (Node._remove c rest v).1 = true := ih _ hc.2
      by_cases hemp :
          ((Node._remove c rest v).1.values.isEmpty &&
            (Node._remove c rest v).1.branches.isEmpty) = true
      · simp only [Node._remove, hf, hemp, if_true]
        rw [wfNode_eq]
        simp only [Node.branches_mk]
        rw [wfBranches_iff]
        intro p hp
        exact (wfBranches_iff n.branches).mp (wfNode_eq n ▸ h) _ (mem_removeBranch _ _ _ hp)
      · rw [Bool.not_eq_true] at hemp
        simp only [Node._remove, hf, hemp, Bool.false_eq_true, if_false]
        rw [wfNode_eq]
        simp only [Node.branches_mk]
        rw [wfBranches_iff]
        intro p hp
        rcases mem_updateBranch _ _ _ _ hp with hmem | heq
        · exact (wfBranches_iff n.branches).mp (wfNode_eq n ▸ h) _ hmem
        · subst heq
          refine ⟨?_, hwfc⟩
          rw [nodeNonEmpty_iff, hemp]
          rfl

theorem wf_foldl {V} [DecidableEq V] (ops : List (Op V)) (t : Node V)
    (h : wfNode t = true) : wfNode (ops.foldl applyOp t) = true := by
  induction ops generalizing t with
  | nil => simpa using h
  | cons op rest ih =>
    simp only [List.foldl_cons]
    apply ih
    cases op with
    | ins f v => exact wf_insert f t v h
    | rem f v => exact wf_remove f t v h

/-- Counterexample for C5 as stated: re-inserting the already present pair
(a, 1) into the tree holding values 1 then 2 under filter "a" is reported as
a no-op (false), yet the stored order under "a" changes from [1, 2] to
[2, 1] — the re-inserted value is moved to the back of the iteration order —
and the change is observable in the matching output for topic "a". -/
theorem c5_insert_set_semantics_counterexample :
    ((1 : Nat) ∈ (((Node.default : Node Nat).insert [Level.Normal "a"] 1).1.insert
        [Level.Normal "a"] 2).1.valuesAt [Level.Normal "a"]) ∧
    ((((Node.default : Node Nat).insert [Level.Normal "a"] 1).1.insert
        [Level.Normal "a"] 2).1.valuesAt [Level.Normal "a"] = [1, 2]) ∧
    (((((Node.default : Node Nat).insert [Level.Normal "a"] 1).1.insert
        [Level.Normal "a"] 2).1.insert [Level.Normal "a"] 1).2 = false) ∧
    (((((Node.default : Node Nat).insert [Level.Normal "a"] 1).1.insert
        [Level.Normal "a"] 2).1.insert [Level.Normal "a"] 1).1.valuesAt
        [Level.Normal "a"] = [2, 1]) ∧
    (MIter.run 10 (MIter.new ((((Node.default : Node Nat).insert
        [Level.Normal "a"] 1).1.insert [Level.Normal "a"] 2).1.insert
        [Level.Normal "a"] 1).1 [Level.Normal "a"] []) =
      [([Level.Normal "a"], [2, 1])]) := by
  refine ⟨by decide, by decide, by decide, by decide, by decide⟩

/-- C5 (amended): insertion has set semantics: inserting v1 then v2 under the
same filter stores both; `insert` reports true exactly when the value was
not yet stored under the filter; re-inserting an already present pair
reports false and leaves the stored set unchanged as a set — same members,
no duplication — though the re-inserted value is moved to the back of the
set's iteration order. -/
theorem c5_insert_set_semantics {V} [DecidableEq V] (t : Node V) (f : List Level)
    (v1 v2 v : V) :
    (v1 ∈ ((t.insert f v1).1.insert f v2).1.valuesAt f ∧
     v2 ∈ ((t.insert f v1).1.insert f v2).1.valuesAt f) ∧
    ((t.insert f v).2 = true ↔ v ∉ t.valuesAt f) ∧
    (v ∈ t.valuesAt f →
      (t.insert f v).2 = false ∧
      (t.insert f v).1.valuesAt f = (t.valuesAt f).erase v ++ [v] ∧
      ((t.insert f v).1.valuesAt f).Perm (t.valuesAt f)) := by
  refine ⟨⟨?_, ?_⟩, ?_, ?_⟩
  · exact insert_preserves_mem f _ v2 v1 (insert_mem_self f t v1)
  · exact insert_mem_self f _ v2
  · exact insert_snd_iff f t v
  · intro h
    obtain ⟨h1, h2⟩ := insert_mem_moves f t v h
    simp only [Node.insert]
    refine ⟨h1, h2, ?_⟩
    rw [h2]
    exact (List.perm_append_singleton v _).trans (List.perm_cons_erase h).symm

/-- Witness for c5_insert_set_semantics: re-inserting a stored value is
reported as a no-op and keeps the stored set a permutation of itself. -/
theorem c5_insert_set_semantics_witness :
    ((2 : Nat) ∈ ((Node.default : Node Nat).insert [Level.Normal "a"] 2).1.valuesAt
        [Level.Normal "a"]) ∧
    ((((Node.default : Node Nat).insert [Level.Normal "a"] 2).1.insert
        [Level.Normal "a"] 2).2 = false ∧
     (((Node.default : Node Nat).insert [Level.Normal "a"] 2).1.insert
        [Level.Normal "a"] 2).1.valuesAt [Level.Normal "a"] =
       ((((Node.default : Node Nat).insert [Level.Normal "a"] 2).1.valuesAt
          [Level.Normal "a"]).erase 2) ++ [2] ∧
     ((((Node.default : Node Nat).insert [Level.Normal "a"] 2).1.insert
        [Level.Normal "a"] 2).1.valuesAt [Level.Normal "a"]).Perm
       (((Node.default : Node Nat).insert [Level.Normal "a"] 2).1.valuesAt
          [Level.Normal "a"])) := by
  refine ⟨by decide, ?_⟩
  exact (c5_insert_set_semantics ((Node.default : Node Nat).insert [Level.Normal "a"] 2).1
    [Level.Normal "a"] 2 2 2).2.2 (by decide)

/-- C6: on a tree satisfying the no-empty-child invariant (which every tree
reachable through the public interface satisfies), removing a value that is
not stored under the filter — including when the filter's path does not
exist — reports false and returns the tree unchanged. -/
theorem c6_remove_absent_noop {V} [DecidableEq V] (t : Node V) (f : List Level) (v : V)
    (hwf : wfNode t = true) (h : v ∉ t.valuesAt f) :
    t.remove f v = (t, false) :=
  remove_of_not_mem f t v hwf h

/-- Witness for c6_remove_absent_noop: removing an absent value from a
concrete two-filter tree reports false and changes nothing. -/
theorem c6_remove_absent_noop_witness :
    (wfNode (((Node.default : Node Nat).insert [Level.Normal "a", Level.Normal "b"] 1).1) = true) ∧
    ((5 : Nat) ∉ (((Node.default : Node Nat).insert [Level.Normal "a", Level.Normal "b"] 1).1).valuesAt
        [Level.Normal "a", Level.Normal "b"]) ∧
    ((((Node.default : Node Nat).insert [Level.Normal "a", Level.Normal "b"] 1).1).remove
        [Level.Normal "a", Level.Normal "b"] 5 =
      ((((Node.default : Node Nat).insert [Level.Normal "a", Level.Normal "b"] 1).1), false)) := by
  refine ⟨by decide, by decide, ?_⟩
  exact c6_remove_absent_noop _ _ 5 (by decide) (by decide)

/-- C7: after any finite sequence of insertions and removals starting from
the empty root, no non-root node has both an empty value set and an empty
branch map: pruning on removal and node creation on insertion preserve the
invariant. -/
theorem c7_no_empty_retained_node {V} [DecidableEq V] (ops : List (Op V)) :
    wfNode (applyOps ops) = true :=
  wf_foldl ops Node.default wfNode_default

theorem append_singleton_ne {α : Type} (sp : List α) (x : α) : sp ++ [x] ≠ sp := by
  intro h
  have hlen := congrArg List.length h
  simp at hlen

theorem addItem_nil {V} (k : List Level) (vs : List V) :
    addItem ([] : List (Item V)) k vs = if vs.isEmpty then [] else [(k, vs)] := by
  simp [addItem]

theorem matchesList_nil_eq {V} (n : Node V) (sp : List Level) :
    matchesList n [] sp =
      (match findBranch n.branches Level.MultiWildcard with
       | some b =>
         if b.values.isEmpty then [] else [(sp ++ [Level.MultiWildcard], b.values)]
       | none => []) ++
      (if n.values.isEmpty then [] else [(sp, n.values)]) := by
  simp only [matchesList]
  cases hf : findBranch n.branches Level.MultiWildcard with
  | none => simp [addItem]
  | some b =>
    by_cases hb : b.values.isEmpty
    · simp [addItem, hb]
    · by_cases hv : n.values.isEmpty <;>
        simp [addItem, hb, hv, append_singleton_ne sp Level.MultiWildcard]

theorem matchesList_cons_eq {V} (n : Node V) (l : Level) (rest sp : List Level) :
    matchesList n (l :: rest) sp =
      (if metaSkip n l sp then []
       else
         match findBranch n.branches Level.MultiWildcard with
         | some b =>
           if b.values.isEmpty then [] else [(sp ++ [Level.MultiWildcard], b.values)]
         | none => []) ++
      (if metaSkip n l sp then []
       else
         match findBranch n.branches Level.SingleWildcard with
         | some b => matchesList b rest (sp ++ [Level.SingleWildcard])
         | none => []) ++
      (match findBranch n.branches l with
       | some b => matchesList b rest (sp ++ [l])
       | none => []) := by
  simp only [matchesList]
  by_cases hs : metaSkip n l sp
  · simp [hs]
  · simp only [hs, if_false]
    cases hf : findBranch n.branches Level.MultiWildcard with
    | none => rfl
    | some b => by_cases hb : b.values.isEmpty <;> simp [addItem, hb]

theorem hasBranch_false_none {V} (bs : List (Level × Node V)) (l : Level)
    (h : hasBranch bs l = false) : findBranch bs l = none := by
  unfold hasBranch at h
  cases hf : findBranch bs l with
  | none => rfl
  | some c => rw [hf] at h; simp at h

/-- C2: for a topic whose first level is metadata-classified and not Blank,
the root node's wildcard branches contribute nothing — matching reduces to
the precise-literal branch (so filters spelling the reserved level literally
still match); below the root the MultiWildcard and SingleWildcard branches
operate on metadata-looking levels normally. -/
theorem c2_root_metadata_exclusion {V} (n : Node V) (l : Level) (rest : List Level)
    (hmeta : l.is_metadata = true) (hblank : l ≠ Level.Blank) :
    (matchesList n (l :: rest) [] =
      (match findBranch n.branches l with
       | some c => matchesList c rest [l]
       | none => [])) ∧
    (∀ sp b, sp ≠ [] → findBranch n.branches Level.MultiWildcard = some b →
      b.values.isEmpty = false →
      (sp ++ [Level.MultiWildcard], b.values) ∈ matchesList n (l :: rest) sp) ∧
    (∀ sp b it, sp ≠ [] → findBranch n.branches Level.SingleWildcard = some b →
      it ∈ matchesList b rest (sp ++ [Level.SingleWildcard]) →
      it ∈ matchesList n (l :: rest) sp) := by
  refine ⟨?_, ?_, ?_⟩
  · rw [matchesList_cons_eq]
    by_cases hw : (hasBranch n.branches Level.MultiWildcard ||
        hasBranch n.branches Level.SingleWildcard) = true
    · have hskip : metaSkip n l [] = true := by
        simp [metaSkip, hmeta, hblank, hw]
      simp [hskip]
    · have hm : hasBranch n.branches Level.MultiWildcard = false := by
        cases hb : hasBranch n.branches Level.MultiWildcard
        · rfl
        · rw [hb] at hw; simp at hw
      have hs : hasBranch n.branches Level.SingleWildcard = false := by
        cases hb : hasBranch n.branches Level.SingleWildcard
        · rfl
        · rw [hb] at hw; simp at hw
      simp [hasBranch_false_none _ _ hm, hasBranch_false_none _ _ hs]
  · intro sp b hsp hf hb
    have hskip : metaSkip n l sp = false := by
      simp [metaSkip, List.isEmpty_iff, hsp]
    rw [matchesList_cons_eq]
    simp [hskip, hf, hb]
  · intro sp b it hsp hf hit
    have hskip : metaSkip n l sp = false := by
      simp [metaSkip, List.isEmpty_iff, hsp]
    rw [matchesList_cons_eq]
    simp only [hskip, if_false, hf, List.append_assoc, List.mem_append]
    right; left
    exact hit

/-- Witness for c2_root_metadata_exclusion: on a tree holding the filters
"#", "+/x" and a literal reserved filter, a topic starting with the reserved
level matches only the literal filter. -/
theorem c2_root_metadata_exclusion_witness :
    ((Level.Metadata "$SYS").is_metadata = true) ∧
    (Level.Metadata "$SYS" ≠ Level.Blank) ∧
    (matchesList sysTree [Level.Metadata "$SYS", Level.Normal "x"] [] =
      (match findBranch sysTree.branches (Level.Metadata "$SYS") with
       | some c => matchesList c [Level.Normal "x"] [Level.Metadata "$SYS"]
       | none => [])) := by
  refine ⟨by decide, by decide, ?_⟩
  exact (c2_root_metadata_exclusion sysTree (Level.Metadata "$SYS") [Level.Normal "x"]
    (by decide) (by decide)).1

theorem hashTree_eval (v : Nat) :
    ((Node.default : Node Nat).insert [Level.MultiWildcard] v).1 =
      Node.mk [] [(Level.MultiWildcard, Node.mk [v] [])] := rfl

/-- C3: a filter ending in MultiWildcard matches the topic truncated at the
wildcard as well as every deeper extension: on an exhausted topic exactly the
node's own values and its MultiWildcard child's values are reported (never a
SingleWildcard child's); the filter "#" alone matches every non-metadata
topic including the zero-level topic; the filter "+/+/#" matches the
two-level topic "a/b". -/
theorem c3_multiwildcard_completion {V} (n : Node V) (sp : List Level) (v : Nat)
    (topic : List Level)
    (hconc : ∀ l ∈ topic, l ≠ Level.SingleWildcard ∧ l ≠ Level.MultiWildcard)
    (hhead : ∀ l0, topic.head? = some l0 → l0 = Level.Blank ∨ l0.is_metadata = false) :
    (matchesList n [] sp =
      (match findBranch n.branches Level.MultiWildcard with
       | some b =>
         if b.values.isEmpty then [] else [(sp ++ [Level.MultiWildcard], b.values)]
       | none => []) ++
      (if n.values.isEmpty then [] else [(sp, n.values)])) ∧
    (matchesList ((Node.default : Node Nat).insert [Level.MultiWildcard] v).1 topic [] =
      [([Level.MultiWildcard], [v])]) ∧
    (matchesList plusTree [Level.Normal "a", Level.Normal "b"] [] =
      [([Level.SingleWildcard, Level.SingleWildcard, Level.MultiWildcard], [5])]) := by
  refine ⟨matchesList_nil_eq n sp, ?_, by decide⟩
  rw [hashTree_eval]
  cases topic with
  | nil => simp [matchesList_nil_eq, findBranch]
  | cons l rest =>
    have hl := hconc l (List.mem_cons_self _ _)
    have hhd := hhead l rfl
    have hskip : metaSkip (Node.mk [] [(Level.MultiWildcard, Node.mk [v] [])]) l [] = false := by
      rcases hhd with hb | hm
      · simp [metaSkip, hb]
      · simp [metaSkip, hm]
    have hne : ¬(Level.MultiWildcard = l) := fun h => hl.2 h.symm
    rw [matchesList_cons_eq]
    simp [hskip, findBranch, hne]

/-- Witness for c3_multiwildcard_completion: the filter "#" matches the
one-level topic "a". -/
theorem c3_multiwildcard_completion_witness :
    (∀ l ∈ [Level.Normal "a"], l ≠ Level.SingleWildcard ∧ l ≠ Level.MultiWildcard) ∧
    (matchesList ((Node.default : Node Nat).insert [Level.MultiWildcard] 7).1
        [Level.Normal "a"] [] = [([Level.MultiWildcard], [7])]) :=
  ⟨by decide,
   (c3_multiwildcard_completion (Node.default : Node Nat) [] 7 [Level.Normal "a"]
     (by decide) (by decide)).2.1⟩

theorem mem_matchesList_shape {V} (path : List Level) (n : Node V) (sp : List Level)
    (it : Item V) (h : it ∈ matchesList n path sp) :
    ∃ s, it.1 = sp ++ s ∧ shapeOk path s := by
  induction path generalizing n sp with
  | nil =>
    rw [matchesList_nil_eq] at h
    rw [List.mem_append] at h
    rcases h with h | h
    · cases hf : findBranch n.branches Level.MultiWildcard with
      | none => rw [hf] at h; simp at h
      | some b =>
        rw [hf] at h
        by_cases hb : b.values.isEmpty
        · simp [hb] at h
        · simp [hb] at h
          exact ⟨[Level.MultiWildcard], by rw [h], Or.inl rfl⟩
    · by_cases hv : n.values.isEmpty
      · simp [hv] at h
      · simp [hv] at h
        exact ⟨[], by rw [h]; simp, Or.inr rfl⟩
  | cons l rest ih =>
    rw [matchesList_cons_eq] at h
    rw [List.append_assoc, List.mem_append] at h
    rcases h with h | h
    · by_cases hs : metaSkip n l sp
      · simp [hs] at h
      · simp only [hs, if_false] at h
        cases hf : findBranch n.branches Level.MultiWildcard with
        | none => rw [hf] at h; simp at h
        | some b =>
          rw [hf] at h
          by_cases hb : b.values.isEmpty
          · simp [hb] at h
          · simp [hb] at h
            exact ⟨[Level.MultiWildcard], by rw [h], Or.inl rfl⟩
    · rw [List.mem_append] at h
      rcases h with h | h
      · by_cases hs : metaSkip n l sp
        · simp [hs] at h
        · simp only [hs, if_false] at h
          cases hf : findBranch n.branches Level.SingleWildcard with
          | none => rw [hf] at h; simp at h
          | some b =>
            rw [hf] at h
            obtain ⟨s', hs', hsh⟩ := ih b (sp ++ [Level.SingleWildcard]) h
            exact ⟨Level.SingleWildcard :: s', by rw [hs']; simp,
              Or.inr ⟨s', Or.inl rfl, hsh⟩⟩
      · cases hf : findBranch n.branches l with
        | none => rw [hf] at h; simp at h
        | some b =>
          rw [hf] at h
          obtain ⟨s', hs', hsh⟩ := ih b (sp ++ [l]) h
          exact ⟨l :: s', by rw [hs']; simp, Or.inr ⟨s', Or.inr rfl, hsh⟩⟩

theorem nodup_append_three {α : Type} (A B C : List α)
    (hA : A.Nodup) (hB : B.Nodup) (hC : C.Nodup)
    (hAB : ∀ x ∈ A, x ∉ B) (hAC : ∀ x ∈ A, x ∉ C) (hBC : ∀ x ∈ B, x ∉ C) :
    (A ++ B ++ C).Nodup := by
  rw [List.nodup_append, List.nodup_append]
  refine ⟨⟨hA, hB, ?_⟩, hC, ?_⟩
  · intro x hx
    exact hAB x hx
  · intro x hx
    rw [List.mem_append] at hx
    rcases hx with h | h
    · exact hAC x h
    · exact hBC x h

theorem mem_map_fst_matchesList {V} {path sp : List Level} {x : List Level} {n : Node V}
    (h : x ∈ (matchesList n path sp).map Prod.fst) :
    ∃ s, x = sp ++ s ∧ shapeOk path s := by
  rw [List.mem_map] at h
  obtain ⟨it, hit, hx⟩ := h
  obtain ⟨s, h1, h2⟩ := mem_matchesList_shape _ _ _ _ hit
  exact ⟨s, by rw [← hx, h1], h2⟩

theorem matchesList_nodup {V} (path : List Level) (n : Node V) (sp : List Level)
    (hconc : ∀ x ∈ path, x ≠ Level.SingleWildcard ∧ x ≠ Level.MultiWildcard) :
    ((matchesList n path sp).map Prod.fst).Nodup := by
  induction path generalizing n sp with
  | nil =>
    rw [matchesList_nil_eq]
    cases hf : findBranch n.branches Level.MultiWildcard with
    | none => by_cases hv : n.values.isEmpty <;> simp [hv]
    | some b =>
      by_cases hb : b.values.isEmpty
      · by_cases hv : n.values.isEmpty <;> simp [hb, hv]
      · by_cases hv : n.values.isEmpty
        · simp [hb, hv]
        · simp [hb, hv, append_singleton_ne sp Level.MultiWildcard]
  | cons l rest ih =>
    have hl := hconc l (List.mem_cons_self _ _)
    have hrest : ∀ x ∈ rest, x ≠ Level.SingleWildcard ∧ x ≠ Level.MultiWildcard :=
      fun x hx => hconc x (List.mem_cons_of_mem _ hx)
    rw [matchesList_cons_eq, List.map_append, List.map_append]
    have hwild : ∀ (b : Node V) (x : List Level),
        x ∈ (matchesList b rest (sp ++ [Level.SingleWildcard])).map Prod.fst →
        ∃ s, x = sp ++ (Level.SingleWildcard :: s) := by
      intro b x hx
      obtain ⟨s, hxs, _⟩ := mem_map_fst_matchesList hx
      exact ⟨s, by rw [hxs]; simp⟩
    have hlit : ∀ (b : Node V) (x : List Level),
        x ∈ (matchesList b rest (sp ++ [l])).map Prod.fst →
        ∃ s, x = sp ++ (l :: s) := by
      intro b x hx
      obtain ⟨s, hxs, _⟩ := mem_map_fst_matchesList hx
      exact ⟨s, by rw [hxs]; simp⟩
    have hmemA : ∀ x, x ∈ (List.map Prod.fst
        (if metaSkip n l sp then []
         else
           match findBranch n.branches Level.MultiWildcard with
           | some b =>
             if b.values.isEmpty then [] else [(sp ++ [Level.MultiWildcard], b.values)]
           | none => [])) → x = sp ++ [Level.MultiWildcard] := by
      intro x hx
      by_cases hs : metaSkip n l sp
      · simp [hs] at hx
      · cases hf : findBranch n.branches Level.MultiWildcard with
        | none => rw [hf] at hx; simp [hs] at hx
        | some b =>
          rw [hf] at hx
          by_cases hb : b.values.isEmpty
          · simp [hs, hb] at hx
          · simp [hs, hb] at hx
            exact hx
    have hmemB : ∀ x, x ∈ (List.map Prod.fst
        (if metaSkip n l sp then []
         else
           match findBranch n.branches Level.SingleWildcard with
           | some b => matchesList b rest (sp ++ [Level.SingleWildcard])
           | none => [])) → ∃ s, x = sp ++ (Level.SingleWildcard :: s) := by
      intro x hx
      by_cases hs : metaSkip n l sp
      · simp [hs] at hx
      · cases hf : findBranch n.branches Level.SingleWildcard with
        | none => rw [hf] at hx; simp [hs] at hx
        | some b =>
          rw [hf] at hx
          simp only [hs, if_false] at hx
          exact hwild b x hx
    have hmemC : ∀ x, x ∈ (List.map Prod.fst
        (match findBranch n.branches l with
         | some b => matchesList b rest (sp ++ [l])
         | none => [])) → ∃ s, x = sp ++ (l :: s) := by
      intro x hx
      cases hf : findBranch n.branches l with
      | none => rw [hf] at hx; simp at hx
      | some b =>
        rw [hf] at hx
        exact hlit b x hx
    apply nodup_append_three
    · by_cases hs : metaSkip n l sp
      · simp [hs]
      · cases hf : findBranch n.branches Level.MultiWildcard with
        | none => simp [hs]
        | some b => by_cases hb : b.values.isEmpty <;> simp [hs, hb]
    · by_cases hs : metaSkip n l sp
      · simp [hs]
      · cases hf : findBranch n.branches Level.SingleWildcard with
        | none => simp [hs]
        | some b =>
          simp only [hs, if_false, hf]
          exact ih b (sp ++ [Level.SingleWildcard]) hrest
    · cases hf : findBranch n.branches l with
      | none => simp
      | some b =>
        simp only [hf]
        exact ih b (sp ++ [l]) hrest
    · intro x hxA hxB
      obtain ⟨s, hxs⟩ := hmemB x hxB
      have hcan := List.append_cancel_left ((hmemA x hxA) ▸ hxs)
      injection hcan with h1 h2
      simp at h1
    · intro x hxA hxC
      obtain ⟨s, hxs⟩ := hmemC x hxC
      have hcan := List.append_cancel_left ((hmemA x hxA) ▸ hxs)
      injection hcan with h1 h2
      exact hl.2 h1.symm
    · intro x hxB hxC
      obtain ⟨s, hxs⟩ := hmemB x hxB
      obtain ⟨t, hxt⟩ := hmemC x hxC
      rw [hxs] at hxt
      have hcan := List.append_cancel_left hxt
      injection hcan with h1 h2
      exact hl.1 h1.symm

theorem sem_mk {V} (n : Node V) (p : List Level) (sp : Option (List Level))
    (curr : List (Item V)) (subs : List (MIter V)) :
    sem (.mk n p sp curr subs) =
      curr ++ semL subs ++
        (match sp with
         | some s => matchesList n p s
         | none => []) := by
  rw [sem.eq_def]

theorem semL_nil {V} : semL ([] : List (MIter V)) = [] := by rw [semL.eq_def]

theorem semL_cons {V} (s : MIter V) (rest : List (MIter V)) :
    semL (s :: rest) = sem s ++ semL rest := by rw [semL.eq_def]

theorem sem_new {V} (n : Node V) (p sp : List Level) :
    sem (MIter.new n p sp) = matchesList n p sp := by
  rw [MIter.new, sem_mk, semL_nil]
  simp

theorem fuelB_mk {V} (n : Node V) (p : List Level) (sp : Option (List Level))
    (curr : List (Item V)) (subs : List (MIter V)) :
    fuelB (.mk n p sp curr subs) = max (p.length + 1) (fuelBL subs + 1) := by
  rw [fuelB.eq_def]

theorem fuelBL_nil {V} : fuelBL ([] : List (MIter V)) = 0 := by rw [fuelBL.eq_def]

theorem fuelBL_cons {V} (s : MIter V) (rest : List (MIter V)) :
    fuelBL (s :: rest) = max (fuelB s) (fuelBL rest) := by rw [fuelBL.eq_def]

theorem fuelB_pos {V} (it : MIter V) : 1 ≤ fuelB it := by
  cases it with
  | mk n p sp curr subs =>
    rw [fuelB_mk]
    exact le_trans (Nat.le_add_left 1 p.length) (le_max_left _ _)

theorem fuelB_new {V} (n : Node V) (p sp : List Level) :
    fuelB (MIter.new n p sp) = p.length + 1 := by
  rw [MIter.new, fuelB_mk, fuelBL_nil]
  exact max_eq_left (Nat.succ_le_succ (Nat.zero_le _))

theorem mem_fuelBL {V} (subs : List (MIter V)) (s : MIter V) (h : s ∈ subs) :
    fuelB s ≤ fuelBL subs := by
  induction subs with
  | nil => simp at h
  | cons a rest ih =>
    rw [fuelBL_cons]
    rcases List.mem_cons.mp h with h1 | h1
    · subst h1; exact le_max_left _ _
    · exact le_trans (ih h1) (le_max_right _ _)

theorem nextFromSubs_ok {V} (step : MIter V → Option (Item V × MIter V))
    (subs : List (MIter V)) (h : ∀ s ∈ subs, stepOK step s) :
    (∀ subs', nextFromSubs step subs = (none, subs') → semL subs = [] ∧ subs' = []) ∧
    (∀ i subs', nextFromSubs step subs = (some i, subs') →
      semL subs = i :: semL subs' ∧ fuelBL subs' ≤ fuelBL subs) := by
  induction subs with
  | nil =>
    constructor
    · intro subs' heq
      rw [nextFromSubs] at heq
      injection heq with h1 h2
      exact ⟨semL_nil, h2.symm⟩
    · intro i subs' heq
      rw [nextFromSubs] at heq
      injection heq with h1 h2
      exact absurd h1 (by simp)
  | cons s rest ih =>
    have hs := h s (List.mem_cons_self _ _)
    have hrest := ih (fun x hx => h x (List.mem_cons_of_mem _ hx))
    cases hstep : step s with
    | some r =>
      obtain ⟨i, s'⟩ := r
      have hsem := hs.2 i s' hstep
      constructor
      · intro subs' heq
        rw [nextFromSubs, hstep] at heq
        injection heq with h1 h2
        exact absurd h1 (by simp)
      · intro i0 subs' heq
        rw [nextFromSubs, hstep] at heq
        injection heq with h1 h2
        injection h1 with h1
        subst h1
        subst h2
        constructor
        · rw [semL_cons, semL_cons, hsem.1]
          rfl
        · rw [fuelBL_cons, fuelBL_cons]
          exact max_le_max hsem.2 (le_refl _)
    | none =>
      have hz := hs.1 hstep
      constructor
      · intro subs' heq
        rw [nextFromSubs, hstep] at heq
        obtain ⟨h1, h2⟩ := hrest.1 subs' heq
        exact ⟨by rw [semL_cons, hz, h1]; rfl, h2⟩
      · intro i subs' heq
        rw [nextFromSubs, hstep] at heq
        obtain ⟨h1, h2⟩ := hrest.2 i subs' heq
        constructor
        · rw [semL_cons, hz, h1]
          rfl
        · rw [fuelBL_cons]
          exact le_trans h2 (le_max_right _ _)

theorem prepare_spec {V} (n : Node V) (p sp : List Level) :
    ∃ curr2 subs2, prepare n p sp [] [] = .mk n p none curr2 subs2 ∧
      curr2 ++ semL subs2 = matchesList n p sp ∧
      fuelBL subs2 ≤ p.length := by
  cases p with
  | nil =>
    refine ⟨_, [], rfl, ?_, by rw [fuelBL_nil]; exact Nat.zero_le _⟩
    rw [semL_nil, List.append_nil]
    rfl
  | cons l rest =>
    refine ⟨_, _, rfl, ?_, ?_⟩
    · simp only [matchesList]
      rw [List.append_assoc]
      congr 1
      by_cases hms : metaSkip n l sp <;>
        cases hf1 : findBranch n.branches Level.SingleWildcard <;>
          cases hf2 : findBranch n.branches l <;>
            simp [hms, hf1, hf2, semL_cons, semL_nil, sem_new]
    · by_cases hms : metaSkip n l sp <;>
        cases hf1 : findBranch n.branches Level.SingleWildcard <;>
          cases hf2 : findBranch n.branches l <;>
            simp [hms, hf1, hf2, fuelBL_cons, fuelBL_nil, fuelB_new]

theorem next_ok {V} : ∀ (f : Nat) (it : MIter V), fuelB it ≤ f → stepOK (MIter.next f) it := by
  intro f
  induction f with
  | zero =>
    intro it h
    have := le_trans (fuelB_pos it) h
    omega
  | succ f ih =>
    intro it hfuel
    obtain ⟨n, p, sp, curr, subs⟩ := it
    have hBL : fuelBL subs + 1 ≤ Nat.succ f := by
      refine le_trans ?_ hfuel
      rw [fuelB_mk]
      exact le_max_right _ _
    have hP : p.length + 1 ≤ Nat.succ f := by
      refine le_trans ?_ hfuel
      rw [fuelB_mk]
      exact le_max_left _ _
    have hsubs : ∀ s ∈ subs, stepOK (MIter.next f) s := by
      intro s hs
      apply ih
      have h1 : fuelB s ≤ fuelBL subs := mem_fuelBL subs s hs
      omega
    cases hcur : curr with
    | cons i rest =>
      have hnext : MIter.next (Nat.succ f) (.mk n p sp (i :: rest) subs) =
          some (i, .mk n p sp rest subs) := rfl
      constructor
      · intro hnone
        rw [hnext] at hnone
        exact absurd hnone (by simp)
      · intro i0 it' heq
        rw [hnext] at heq
        injection heq with heq
        injection heq with h1 h2
        subst h1
        subst h2
        constructor
        · rw [sem_mk, sem_mk, List.cons_append, List.cons_append]
        · rw [fuelB_mk, fuelB_mk]
    | nil =>
      have hok := nextFromSubs_ok (MIter.next f) subs hsubs
      rcases hdrain : nextFromSubs (MIter.next f) subs with ⟨oi, subs'⟩
      cases oi with
      | some i =>
        obtain ⟨hsem, hfb⟩ := hok.2 i subs' hdrain
        have hni : next_item (MIter.next f) (.mk n p sp [] subs) =
            (some i, .mk n p sp [] subs') := by
          simp only [next_item, hdrain]
        have hnext : MIter.next (Nat.succ f) (.mk n p sp [] subs) =
            some (i, .mk n p sp [] subs') := by
          simp only [MIter.next, hni]
        constructor
        · intro hnone
          rw [hnext] at hnone
          exact absurd hnone (by simp)
        · intro i0 it' heq
          rw [hnext] at heq
          injection heq with heq
          injection heq with h1 h2
          subst h1
          subst h2
          constructor
          · rw [sem_mk, sem_mk, hsem, List.nil_append, List.nil_append,
              List.cons_append]
          · rw [fuelB_mk, fuelB_mk]
            exact max_le_max (le_refl _) (Nat.succ_le_succ hfb)
      | none =>
        obtain ⟨hzero, hsubs'⟩ := hok.1 subs' hdrain
        subst hsubs'
        have hni : next_item (MIter.next f) (.mk n p sp [] subs) =
            (none, .mk n p sp [] []) := by
          simp only [next_item, hdrain]
        cases sp with
        | none =>
          have hnext : MIter.next (Nat.succ f) (.mk n p none ([] : List (Item V)) subs) = none := by
            simp only [MIter.next, hni]
          constructor
          · intro _
            rw [sem_mk, hzero]
            simp
          · intro i it' heq
            rw [hnext] at heq
            exact absurd heq (by simp)
        | some sps =>
          obtain ⟨curr2, subs2, hprep, hsem2, hfb2⟩ := prepare_spec n p sps
          have hsemit : sem (.mk n p (some sps) ([] : List (Item V)) subs) =
              matchesList n p sps := by
            rw [sem_mk, hzero]
            simp
          have hsubs2 : ∀ s ∈ subs2, stepOK (MIter.next f) s := by
            intro s hs
            apply ih
            have h1 : fuelB s ≤ fuelBL subs2 := mem_fuelBL subs2 s hs
            omega
          cases hcur2 : curr2 with
          | cons j rest2 =>
            have hnext : MIter.next (Nat.succ f) (.mk n p (some sps) [] subs) =
                some (j, .mk n p none rest2 subs2) := by
              simp only [MIter.next, next_item, hdrain, hprep, hcur2]
            constructor
            · intro hnone
              rw [hnext] at hnone
              exact absurd hnone (by simp)
            · intro i0 it' heq
              rw [hnext] at heq
              injection heq with heq
              injection heq with h1 h2
              subst h1
              subst h2
              constructor
              · rw [hsemit, ← hsem2, hcur2, sem_mk, List.cons_append]
                simp
              · rw [fuelB_mk, fuelB_mk]
                apply max_le
                · exact le_max_left _ _
                · exact le_trans (Nat.succ_le_succ hfb2) (le_max_left _ _)
          | nil =>
            subst hcur2
            have hok2 := nextFromSubs_ok (MIter.next f) subs2 hsubs2
            rcases hdrain2 : nextFromSubs (MIter.next f) subs2 with ⟨oj, subs2'⟩
            cases oj with
            | some j =>
              obtain ⟨hsem3, hfb3⟩ := hok2.2 j subs2' hdrain2
              have hnext : MIter.next (Nat.succ f) (.mk n p (some sps) [] subs) =
                  some (j, .mk n p none [] subs2') := by
                simp only [MIter.next, next_item, hdrain, hprep, hdrain2]
              constructor
              · intro hnone
                rw [hnext] at hnone
                exact absurd hnone (by simp)
              · intro i0 it' heq
                rw [hnext] at heq
                injection heq with heq
                injection heq with h1 h2
                subst h1
                subst h2
                constructor
                · rw [hsemit, ← hsem2, hsem3, sem_mk]
                  simp
                · rw [fuelB_mk, fuelB_mk]
                  apply max_le
                  · exact le_max_left _ _
                  · exact le_trans (Nat.succ_le_succ (le_trans hfb3 hfb2)) (le_max_left _ _)
            | none =>
              obtain ⟨hzero2, hsubs2'⟩ := hok2.1 subs2' hdrain2
              have hnext : MIter.next (Nat.succ f) (.mk n p (some sps) [] subs) = none := by
                simp only [MIter.next, next_item, hdrain, hprep, hdrain2]
              constructor
              · intro _
                rw [hsemit, ← hsem2, hzero2]
                simp
              · intro i0 it' heq
                rw [hnext] at heq
                exact absurd heq (by simp)

theorem run_eq_sem {V} : ∀ (f : Nat) (it : MIter V),
    fuelB it + (sem it).length ≤ f → MIter.run f it = sem it := by
  intro f
  induction f with
  | zero =>
    intro it h
    have := fuelB_pos it
    omega
  | succ f ih =>
    intro it h
    have hstep := next_ok (Nat.succ f) it (by omega)
    cases hn : MIter.next (Nat.succ f) it with
    | none =>
      have hz := hstep.1 hn
      rw [MIter.run, hn, hz]
    | some r =>
      obtain ⟨i, it'⟩ := r
      obtain ⟨hsem, hfb⟩ := hstep.2 i it' hn
      have hlen : (sem it).length = (sem it').length + 1 := by
        rw [hsem]
        rfl
      rw [MIter.run, hn, hsem]
      simp only []
      rw [ih it' (by omega)]

/-- Equivalence of the explicit iterator state machine with the recursive
output denotation: given enough fuel, a full run of `MatchedIter` started at
a node, topic suffix and sub-path yields exactly `matchesList`. -/
theorem run_eq_matchesList {V} (n : Node V) (p sp : List Level) (f : Nat)
    (h : p.length + 1 + (matchesList n p sp).length ≤ f) :
    MIter.run f (MIter.new n p sp) = matchesList n p sp := by
  have hsem := sem_new n p sp
  rw [← hsem]
  apply run_eq_sem
  rw [fuelB_new, hsem]
  exact h

/-- C4: the lazy traversal's yield order is fixed: a frame's directly
available items (the MultiWildcard child's values and, at exhaustion, the
node's own values, each only when non-empty) come before anything from
deeper recursion, and the whole SingleWildcard branch is drained before the
precise-literal branch begins; the machine run equals the structured
concatenation. -/
theorem c4_lazy_traversal_order {V} (n : Node V) (p sp : List Level) (f : Nat)
    (h : p.length + 1 + (matchesList n p sp).length ≤ f) :
    (MIter.run f (MIter.new n p sp) = matchesList n p sp) ∧
    (∀ l rest, p = l :: rest →
      MIter.run f (MIter.new n p sp) =
        (if metaSkip n l sp then []
         else
           match findBranch n.branches Level.MultiWildcard with
           | some b =>
             if b.values.isEmpty then [] else [(sp ++ [Level.MultiWildcard], b.values)]
           | none => []) ++
        (if metaSkip n l sp then []
         else
           match findBranch n.branches Level.SingleWildcard with
           | some b => matchesList b rest (sp ++ [Level.SingleWildcard])
           | none => []) ++
        (match findBranch n.branches l with
         | some b => matchesList b rest (sp ++ [l])
         | none => [])) ∧
    (p = [] →
      MIter.run f (MIter.new n p sp) =
        (match findBranch n.branches Level.MultiWildcard with
         | some b =>
           if b.values.isEmpty then [] else [(sp ++ [Level.MultiWildcard], b.values)]
         | none => []) ++
        (if n.values.isEmpty then [] else [(sp, n.values)])) := by
  have hrun := run_eq_matchesList n p sp f h
  refine ⟨hrun, ?_, ?_⟩
  · intro l rest hp
    subst hp
    rw [hrun, matchesList_cons_eq]
  · intro hp
    subst hp
    rw [hrun, matchesList_nil_eq]

/-- Witness for c4_lazy_traversal_order: a full machine run over a concrete
four-filter tree. -/
theorem c4_lazy_traversal_order_witness :
    (([Level.Normal "a", Level.Normal "b", Level.Normal "c"] : List Level).length + 1 +
      (matchesList exTree [Level.Normal "a", Level.Normal "b", Level.Normal "c"] []).length ≤ 20) ∧
    (MIter.run 20 (MIter.new exTree [Level.Normal "a", Level.Normal "b", Level.Normal "c"] []) =
      matchesList exTree [Level.Normal "a", Level.Normal "b", Level.Normal "c"] []) :=
  ⟨by decide,
   (c4_lazy_traversal_order exTree [Level.Normal "a", Level.Normal "b", Level.Normal "c"] []
      20 (by decide)).1⟩

/-- C1: on the tree holding the filters "a/b/c", "a/+/c", "a/#" and "a/b",
the topic "a/b/c" matches the first three filters with their registered
values and does not match "a/b"; a Blank level is consumed by the
SingleWildcard like any other level. -/
theorem c1_wildcard_matching :
    (MIter.run 20 (MIter.new exTree
        [Level.Normal "a", Level.Normal "b", Level.Normal "c"] []) =
      [([Level.Normal "a", Level.MultiWildcard], [3]),
       ([Level.Normal "a", Level.SingleWildcard, Level.Normal "c"], [2]),
       ([Level.Normal "a", Level.Normal "b", Level.Normal "c"], [1])]) ∧
    (([Level.Normal "a", Level.Normal "b"], [4]) ∉ MIter.run 20 (MIter.new exTree
        [Level.Normal "a", Level.Normal "b", Level.Normal "c"] [])) ∧
    (MIter.run 20 (MIter.new exTree
        [Level.Normal "a", Level.Blank, Level.Normal "c"] []) =
      [([Level.Normal "a", Level.MultiWildcard], [3]),
       ([Level.Normal "a", Level.SingleWildcard, Level.Normal "c"], [2])]) := by
  refine ⟨by decide, by decide, by decide⟩

/-- C10: over any tree, a full traversal run for a concrete topic (no
wildcard levels) never reports the same matched filter path twice. -/
theorem c10_distinct_matched_paths {V} (n : Node V) (topic : List Level) (f : Nat)
    (hconc : ∀ x ∈ topic, x ≠ Level.SingleWildcard ∧ x ≠ Level.MultiWildcard)
    (hf : topic.length + 1 + (matchesList n topic []).length ≤ f) :
    ((MIter.run f (MIter.new n topic [])).map Prod.fst).Nodup := by
  rw [run_eq_matchesList n topic [] f hf]
  exact matchesList_nodup topic n [] hconc

/-- Witness for c10_distinct_matched_paths: the concrete run over the
four-filter tree yields pairwise distinct paths. -/
theorem c10_distinct_matched_paths_witness :
    (∀ x ∈ [Level.Normal "a", Level.Normal "b", Level.Normal "c"],
      x ≠ Level.SingleWildcard ∧ x ≠ Level.MultiWildcard) ∧
    (([Level.Normal "a", Level.Normal "b", Level.Normal "c"] : List Level).length + 1 +
      (matchesList exTree [Level.Normal "a", Level.Normal "b", Level.Normal "c"] []).length ≤ 20) ∧
    ((MIter.run 20 (MIter.new exTree
        [Level.Normal "a", Level.Normal "b", Level.Normal "c"] [])).map Prod.fst).Nodup :=
  ⟨by decide, by decide,
   c10_distinct_matched_paths exTree [Level.Normal "a", Level.Normal "b", Level.Normal "c"]
     20 (by decide) (by decide)⟩

theorem decodeValueList_encode (vs : List NodeId) :
    decodeValueList (vs.map fun v => .pair (.nat v) .unit) = some vs := by
  induction vs with
  | nil => rfl
  | cons v rest ih =>
    simp only [List.map_cons, decodeValueList, decodeValueEntry, ih]

theorem decodeValues_encode (vs : List NodeId) :
    decodeValues (.seq (vs.map fun v => .pair (.nat v) .unit)) = some vs := by
  simp only [decodeValues]
  exact decodeValueList_encode vs

theorem fromIterValues_aux (vs acc : List NodeId) (hnd : nodupVals vs = true)
    (hdisj : ∀ v ∈ vs, v ∉ acc) :
    vs.foldl (fun acc v => (if v ∈ acc then acc.erase v else acc) ++ [v]) acc = acc ++ vs := by
  induction vs generalizing acc with
  | nil => simp
  | cons v rest ih =>
    simp only [nodupVals, Bool.and_eq_true, Bool.not_eq_true', decide_eq_false_iff_not] at hnd
    have hv : v ∉ acc := hdisj v (List.mem_cons_self _ _)
    simp only [List.foldl_cons, hv, if_false]
    rw [ih (acc ++ [v]) hnd.2]
    · simp
    · intro w hw
      rw [List.mem_append, List.mem_singleton]
      rintro (h1 | h1)
      · exact hdisj w (List.mem_cons_of_mem _ hw) h1
      · exact hnd.1 (h1 ▸ hw)

theorem fromIterValues_id (vs : List NodeId) (hnd : nodupVals vs = true) :
    fromIterValues vs = vs := by
  have := fromIterValues_aux vs [] hnd (by simp)
  simpa [fromIterValues] using this

theorem updateBranch_append {V} (acc : List (Level × Node V)) (k : Level) (c : Node V)
    (h : findBranch acc k = none) : updateBranch acc k c = acc ++ [(k, c)] := by
  induction acc with
  | nil => rfl
  | cons p rest ih =>
    obtain ⟨k0, c0⟩ := p
    by_cases h0 : k0 = k
    · rw [findBranch, if_pos h0] at h
      exact absurd h (by simp)
    · rw [findBranch, if_neg h0] at h
      rw [updateBranch, if_neg h0, ih h]
      rfl

theorem findBranch_append_none {V} (acc bs : List (Level × Node V)) (k : Level)
    (h1 : findBranch acc k = none) (h2 : findBranch bs k = none) :
    findBranch (acc ++ bs) k = none := by
  induction acc with
  | nil => simpa using h2
  | cons p rest ih =>
    obtain ⟨k0, c0⟩ := p
    by_cases h0 : k0 = k
    · rw [findBranch, if_pos h0] at h1
      exact absurd h1 (by simp)
    · rw [findBranch, if_neg h0] at h1
      rw [List.cons_append, findBranch, if_neg h0]
      exact ih h1

theorem findBranch_isSome_of_mem {V} (bs : List (Level × Node V)) (p : Level × Node V)
    (hp : p ∈ bs) : (findBranch bs p.1).isSome = true := by
  induction bs with
  | nil => simp at hp
  | cons q rest ih =>
    obtain ⟨k0, c0⟩ := q
    rcases List.mem_cons.mp hp with h1 | h1
    · subst h1
      rw [findBranch, if_pos rfl]
      rfl
    · by_cases h0 : k0 = p.1
      · rw [findBranch, if_pos h0]
        rfl
      · rw [findBranch, if_neg h0]
        exact ih h1

theorem fromIterBranches_aux (bs acc : List (Level × Node NodeId))
    (hnd : nodupKeysB bs = true)
    (hdisj : ∀ p ∈ bs, findBranch acc p.1 = none) :
    bs.foldl (fun acc p => updateBranch acc p.1 p.2) acc = acc ++ bs := by
  induction bs generalizing acc with
  | nil => simp
  | cons p rest ih =>
    obtain ⟨k, c⟩ := p
    simp only [nodupKeysB, Bool.and_eq_true, Bool.not_eq_true'] at hnd
    have hk : findBranch acc k = none := hdisj (k, c) (List.mem_cons_self _ _)
    simp only [List.foldl_cons]
    rw [updateBranch_append acc k c hk]
    rw [ih (acc ++ [(k, c)]) hnd.2]
    · simp
    · intro q hq
      apply findBranch_append_none
      · exact hdisj q (List.mem_cons_of_mem _ hq)
      · have hqk : ¬(k = q.1) := by
          intro heq
          have hsome := findBranch_isSome_of_mem rest q hq
          rw [← heq] at hsome
          rw [hasBranch] at hnd
          rw [hnd.1] at hsome
          simp at hsome
        rw [findBranch, if_neg hqk, findBranch]

theorem fromIterBranches_id (bs : List (Level × Node NodeId))
    (hnd : nodupKeysB bs = true) : fromIterBranches bs = bs := by
  have := fromIterBranches_aux bs [] hnd (by intro p hp; rfl)
  simpa [fromIterBranches] using this

theorem decodeBranchList_encode (bs : List (Level × Node NodeId))
    (h : ∀ p ∈ bs, decodeNode (encodeNode p.2) = some p.2) :
    decodeBranchList (encodeBranches bs) = some bs := by
  induction bs with
  | nil => rfl
  | cons p rest ih =>
    obtain ⟨l, c⟩ := p
    have hc := h (l, c) (List.mem_cons_self _ _)
    have hrest := ih (fun q hq => h q (List.mem_cons_of_mem _ hq))
    simp only [encodeBranches, decodeBranchList]
    rw [hc, hrest]

theorem sizeOf_child_lt (vs : List NodeId) (bs : List (Level × Node NodeId))
    (p : Level × Node NodeId) (hp : p ∈ bs) :
    sizeOf p.2 < sizeOf (Node.mk vs bs) := by
  have h1 := List.sizeOf_lt_of_mem hp
  obtain ⟨l, c⟩ := p
  have h2 : sizeOf (Node.mk vs bs) = 1 + sizeOf vs + sizeOf bs := by simp
  have h3 : sizeOf ((l, c) : Level × Node NodeId) = 1 + sizeOf l + sizeOf c := by simp
  simp only [] at h1 ⊢
  omega

theorem codecInvB_mem (bs : List (Level × Node NodeId)) (p : Level × Node NodeId)
    (hp : p ∈ bs) (h : codecInvB bs = true) : codecInv p.2 = true := by
  induction bs with
  | nil => simp at hp
  | cons q rest ih =>
    obtain ⟨k, c⟩ := q
    simp only [codecInvB, Bool.and_eq_true] at h
    rcases List.mem_cons.mp hp with h1 | h1
    · subst h1; exact h.1
    · exact ih h1 h.2

theorem decode_encode_aux : ∀ (k : Nat) (t : Node NodeId), sizeOf t ≤ k →
    codecInv t = true → decodeNode (encodeNode t) = some t := by
  intro k
  induction k with
  | zero =>
    intro t hsz _
    obtain ⟨vs, bs⟩ := t
    have h2 : sizeOf (Node.mk vs bs) = 1 + sizeOf vs + sizeOf bs := by simp
    omega
  | succ k ih =>
    intro t hsz hinv
    obtain ⟨vs, bs⟩ := t
    simp only [codecInv, Bool.and_eq_true] at hinv
    have hchild : ∀ p ∈ bs, decodeNode (encodeNode p.2) = some p.2 := by
      intro p hp
      refine ih p.2 ?_ (codecInvB_mem bs p hp hinv.2)
      have := sizeOf_child_lt vs bs p hp
      omega
    simp only [encodeNode, decodeNode]
    rw [decodeValues_encode, decodeBranchList_encode bs hchild]
    simp only [fromIterValues_id vs hinv.1.1, fromIterBranches_id bs hinv.1.2]

theorem decode_encode (t : Node NodeId) (h : codecInv t = true) :
    decodeNode (encodeNode t) = some t :=
  decode_encode_aux (sizeOf t) t (le_refl _) h

/-- C8: decoding the encoding of a tree succeeds and yields a tree reporting
exactly the same matches for every probe topic; the hypothesis states the
representation invariant of the Rust container types (a value set holds no
duplicate value, a branch map no duplicate key), which every representable
tree satisfies. -/
theorem c8_roundtrip_preserves_matches (t : Node NodeId) (h : codecInv t = true) :
    ∃ t', decodeNode (encodeNode t) = some t' ∧
      ∀ topic sp : List Level, matchesList t' topic sp = matchesList t topic sp :=
  ⟨t, decode_encode t h, fun _ _ => rfl⟩

/-- Witness for c8_roundtrip_preserves_matches: the concrete four-filter tree
round-trips. -/
theorem c8_roundtrip_preserves_matches_witness :
    (codecInv exTree = true) ∧
    (∃ t', decodeNode (encodeNode exTree) = some t' ∧
      ∀ topic sp : List Level, matchesList t' topic sp = matchesList exTree topic sp) :=
  ⟨by decide, c8_roundtrip_preserves_matches exTree (by decide)⟩

theorem decodeNode_seq_len (xs : List SData) (h : xs.length ≠ 2) :
    decodeNode (.seq xs) = none := by
  match xs with
  | [] => rfl
  | [a] => rfl
  | [a, b] => exact absurd rfl h
  | a :: b :: c :: rest => rfl

theorem decodeNode_not_seq (d : SData) (h : ∀ xs, d ≠ .seq xs) :
    decodeNode d = none := by
  cases d with
  | nat n => rfl
  | unit => rfl
  | level l => rfl
  | pair a b => rfl
  | seq xs => exact absurd rfl (h xs)

theorem decodeNode_values_fail (a b : SData) (h : decodeValues a = none) :
    decodeNode (.seq [a, b]) = none := by
  rw [decodeNode.eq_def]
  simp only [h]

theorem decodeValues_elem_fail (xs : List SData) (x : SData) (hx : x ∈ xs)
    (h : decodeValueEntry x = none) : decodeValues (.seq xs) = none := by
  simp only [decodeValues]
  induction xs with
  | nil => simp at hx
  | cons y rest ih =>
    rcases List.mem_cons.mp hx with h1 | h1
    · subst h1
      simp only [decodeValueList, h]
    · cases hy : decodeValueEntry y with
      | none => simp only [decodeValueList, hy]
      | some v => simp only [decodeValueList, hy, ih h1]

theorem decodeNode_branch_fail (a : SData) (ys : List SData)
    (h : decodeBranchList ys = none) : decodeNode (.seq [a, .seq ys]) = none := by
  rw [decodeNode.eq_def]
  cases ha : decodeValues a with
  | none => simp only [ha]
  | some vs => simp only [ha, h]

theorem decodeNode_success (a : SData) (vs : List NodeId) (h1 : decodeValues a = some vs)
    (ys : List SData) (bs : List (Level × Node NodeId))
    (h2 : decodeBranchList ys = some bs) :
    decodeNode (.seq [a, .seq ys]) =
      some (.mk (fromIterValues vs) (fromIterBranches bs)) := by
  rw [decodeNode.eq_def]
  simp only [h1, h2]

/-- C9: decoding fails, building nothing, whenever the top-level shape is not
exactly a two-element sequence or a nested value entry or branch entry fails
its own decode; on the exact two-element shape with well-formed elements it
succeeds with the rebuilt node. -/
theorem c9_decode_error_handling :
    (∀ xs : List SData, xs.length ≠ 2 → decodeNode (.seq xs) = none) ∧
    (∀ d : SData, (∀ xs, d ≠ .seq xs) → decodeNode d = none) ∧
    (∀ a b : SData, decodeValues a = none → decodeNode (.seq [a, b]) = none) ∧
    (∀ xs : List SData, ∀ x ∈ xs, decodeValueEntry x = none →
      decodeValues (.seq xs) = none) ∧
    (∀ a : SData, ∀ ys : List SData, decodeBranchList ys = none →
      decodeNode (.seq [a, .seq ys]) = none) ∧
    (∀ (a : SData) (vs : List NodeId), decodeValues a = some vs →
      ∀ (ys : List SData) (bs : List (Level × Node NodeId)),
        decodeBranchList ys = some bs →
        decodeNode (.seq [a, .seq ys]) =
          some (.mk (fromIterValues vs) (fromIterBranches bs))) :=
  ⟨decodeNode_seq_len, decodeNode_not_seq, decodeNode_values_fail,
   decodeValues_elem_fail, decodeNode_branch_fail, decodeNode_success⟩

/-- Witness for c9_decode_error_handling: a one-element sequence is rejected
and the empty two-element shape decodes to the empty node. -/
theorem c9_decode_error_handling_witness :
    (([SData.nat 0] : List SData).length ≠ 2 ∧ decodeNode (.seq [.nat 0]) = none) ∧
    (decodeValues (.seq []) = some [] ∧ decodeBranchList [] = some [] ∧
      decodeNode (.seq [.seq [], .seq []]) =
        some (.mk (fromIterValues []) (fromIterBranches []))) :=
  ⟨⟨by decide, c9_decode_error_handling.1 [.nat 0] (by decide)⟩,
   ⟨rfl, rfl, c9_decode_error_handling.2.2.2.2.2 (.seq []) [] rfl [] [] rfl⟩⟩
